import Mathlib

/-!
Verification of the Recency-Bounded Memoizing Cache specified for this
repository.  The repository's source demonstrates the cache only through
`functools.lru_cache` callers (`src/functools_examples.py`); the engine
itself (KeyCodec, RecencyList, HashIndex, SingleFlightGroup, Cache façade)
is specified in `spec.md` §2–§7 and is modelled here from the spec.  The
demonstration caller `make_call` is translated directly from the source.
-/

set_option linter.unusedVariables false

namespace LruSpec

/-- Modelled from the spec: the Cache façade of §3/§4.5, which is absent from
`src/` (the source only uses `functools.lru_cache`).  `order` is the
RecencyList, head = most recently used, tail = least recently used.  `index`
is the HashIndex, an association list from key to stored value.  `cap` is the
capacity: `none` is the "unbounded" sentinel, `some m` a finite capacity.
`hits`, `misses`, `evictions` are the lifetime statistics counters. -/
structure Cache (K V : Type) where
  order : List K
  index : List (K × V)
  cap : Option Nat
  hits : Nat
  misses : Nat
  evictions : Nat
deriving Repr, DecidableEq

/-- Lookup of a key in the HashIndex (first matching entry's value). -/
def findVal {K V : Type} [DecidableEq K] (k : K) : List (K × V) → Option V
  | [] => none
  | p :: rest => if p.1 = k then some p.2 else findVal k rest

/-- Removal of the first entry with the given key from the HashIndex. -/
def eraseKey {K V : Type} [DecidableEq K] (k : K) : List (K × V) → List (K × V)
  | [] => []
  | p :: rest => if p.1 = k then rest else p :: eraseKey k rest

/-- Modelled from the spec: one eviction step of §4.5 step 6 — pop the
RecencyList tail and remove its key from the HashIndex, incrementing
`evictions`. -/
def popBack {K V : Type} [DecidableEq K] (c : Cache K V) : Cache K V :=
  match c.order.getLast? with
  | none => c
  | some k =>
      { c with
        order := c.order.dropLast
        index := eraseKey k c.index
        evictions := c.evictions + 1 }

/-- Modelled from the spec: the eviction loop of §4.5 step 6, "repeated until
size ≤ capacity".  `fuel` bounds the iteration count; the loop pops one tail
entry per step, so `c.order.length` steps always suffice. -/
def evictN {K V : Type} [DecidableEq K] (fuel m : Nat) (c : Cache K V) : Cache K V :=
  match fuel with
  | 0 => c
  | fuel + 1 => if c.order.length ≤ m then c else evictN fuel m (popBack c)

/-- Modelled from the spec: apply the capacity bound after an insertion;
"unbounded disables eviction" (§6). -/
def applyCap {K V : Type} [DecidableEq K] (c : Cache K V) : Cache K V :=
  match c.cap with
  | none => c
  | some m => evictN c.order.length m c

/-- Outcome of one `get_or_compute` call: the value or error returned to the
caller, the cache state afterwards, and how many times the wrapped
computation function was invoked during the call (0 or 1). -/
structure CallResult (K V E : Type) where
  result : Except E V
  cache : Cache K V
  invoked : Nat
deriving Repr

/-- Modelled from the spec: `get_or_compute` of §4.5 (sequential path).
Step 2: capacity 0 always treats the call as a miss and never retains the
result.  Step 3: on a hit, promote the key to the RecencyList front and
increment `hits`.  Step 5: on a miss, increment `misses` and invoke the
computation function; an error is returned with no entry created.  Step 6: on
success, insert at the front and evict tail entries while over a finite
capacity. -/
def get_or_compute {K V E : Type} [DecidableEq K] (c : Cache K V) (k : K)
    (f : K → Except E V) : CallResult K V E :=
  if c.cap = some 0 then
    ⟨f k, { c with misses := c.misses + 1 }, 1⟩
  else
    match findVal k c.index with
    | some v =>
        ⟨.ok v, { c with order := k :: c.order.erase k, hits := c.hits + 1 }, 0⟩
    | none =>
        match f k with
        | .error e => ⟨.error e, { c with misses := c.misses + 1 }, 1⟩
        | .ok v =>
            ⟨.ok v,
              applyCap
                { c with
                  order := k :: c.order
                  index := (k, v) :: c.index
                  misses := c.misses + 1 }, 1⟩

/-- Modelled from the spec: `new_cache` of §6 — an empty cache with the given
capacity and zeroed statistics. -/
def new_cache {K V : Type} (cap : Option Nat) : Cache K V :=
  ⟨[], [], cap, 0, 0, 0⟩

/-- Modelled from the spec: `clear` of §4.5 — empties HashIndex and
RecencyList; does not touch the statistics counters. -/
def clear {K V : Type} (c : Cache K V) : Cache K V :=
  { c with order := [], index := [] }

/-- Modelled from the spec: `reset_stats` of §4.5/§6 — zeroes the lifetime
statistics counters, leaving residency untouched. -/
def reset_stats {K V : Type} (c : Cache K V) : Cache K V :=
  { c with hits := 0, misses := 0, evictions := 0 }

/-- Size of the HashIndex, the `current_size` reported by `stats()`. -/
def current_size {K V : Type} (c : Cache K V) : Nat :=
  c.index.length

/-- Running a sequence of `get_or_compute` calls, threading the cache. -/
def runCalls {K V E : Type} [DecidableEq K]
    (calls : List (K × (K → Except E V))) (c : Cache K V) : Cache K V :=
  calls.foldl (fun s p => (get_or_compute s p.1 p.2).cache) c

/-! KeyCodec (§4.1): arguments carry a hashability flag; key construction
fails when any argument is not hashable, and canonicalizes the keyword
arguments by sorting. -/

/-- Modelled from the spec: a call argument as the KeyCodec sees it — a value
together with whether it can participate in equality/hash comparisons. -/
structure Arg where
  hashable : Bool
  val : Nat
deriving Repr, DecidableEq

/-- Modelled from the spec: a CacheKey — positional argument values
(order-significant) paired with canonically ordered keyword bindings. -/
abbrev CacheKey := List Nat × List (Nat × Nat)

/-- Lexicographic comparison of keyword bindings (name first, then value),
used to canonicalize keyword-argument order. -/
def pairLe (a b : Nat × Nat) : Prop :=
  a.1 < b.1 ∨ (a.1 = b.1 ∧ a.2 ≤ b.2)

instance : DecidableRel pairLe := fun a b => by
  unfold pairLe
  infer_instance

instance : IsTotal (Nat × Nat) pairLe :=
  ⟨fun a b => by
    rcases Nat.lt_trichotomy a.1 b.1 with h | h | h
    · exact Or.inl (Or.inl h)
    · rcases Nat.le_total a.2 b.2 with h2 | h2
      · exact Or.inl (Or.inr ⟨h, h2⟩)
      · exact Or.inr (Or.inr ⟨h.symm, h2⟩)
    · exact Or.inr (Or.inl h)⟩

instance : IsTrans (Nat × Nat) pairLe :=
  ⟨fun a b c h1 h2 => by
    rcases h1 with h1 | ⟨h1, h1'⟩ <;> rcases h2 with h2 | ⟨h2, h2'⟩ <;>
      unfold pairLe <;> omega⟩

instance : IsAntisymm (Nat × Nat) pairLe :=
  ⟨fun a b h1 h2 => by
    obtain ⟨x, y⟩ := a
    obtain ⟨z, w⟩ := b
    rcases h1 with h1 | ⟨h1, h1'⟩ <;> rcases h2 with h2 | ⟨h2, h2'⟩ <;>
      simp_all <;> omega⟩

/-- Check that every positional and keyword argument is hashable. -/
def hashableArgs (pos : List Arg) (kw : List (Nat × Arg)) : Bool :=
  pos.all (·.hashable) && kw.all (fun p => p.2.hashable)

/-- Modelled from the spec: `build_key` of §4.1 — fails with `Unhashable` when
any argument is not hashable; otherwise combines the positional values
(order-significant) with the keyword bindings sorted into canonical order. -/
def build_key (pos : List Arg) (kw : List (Nat × Arg)) : Except Unit CacheKey :=
  if hashableArgs pos kw then
    .ok (pos.map (·.val), List.insertionSort pairLe (kw.map (fun p => (p.1, p.2.val))))
  else
    .error ()

/-- Modelled from the spec: the error taxonomy of §7. -/
inductive CacheErr where
  | unhashable
  | computationFailed
deriving Repr, DecidableEq

/-- Modelled from the spec: the full call pipeline of §4.5 — build the key
from the arguments (step 1, propagating `Unhashable` with the cache untouched
and the computation function not invoked), then run `get_or_compute`. -/
def callArgs {V : Type} (c : Cache CacheKey V) (pos : List Arg)
    (kw : List (Nat × Arg)) (f : CacheKey → Except Unit V) :
    CallResult CacheKey V CacheErr :=
  match build_key pos kw with
  | .error _ => ⟨.error .unhashable, c, 0⟩
  | .ok key =>
      let r := get_or_compute c key f
      ⟨r.result.mapError (fun _ => .computationFailed), r.cache, r.invoked⟩

/-- Frame conditions around `clear` and `reset_stats`: clearing empties the
residency structures while preserving all three statistics counters, a call
right after `clear` recomputes (one invocation, one additional miss), and
`reset_stats` zeroes the counters. -/
def ClearFrameSpec {K V E : Type} [DecidableEq K] (c : Cache K V) (k : K)
    (f : K → Except E V) : Prop :=
  current_size (clear c) = 0 ∧
  (clear c).order = [] ∧
  (clear c).hits = c.hits ∧
  (clear c).misses = c.misses ∧
  (clear c).evictions = c.evictions ∧
  (get_or_compute (clear c) k f).invoked = 1 ∧
  (get_or_compute (clear c) k f).cache.misses = c.misses + 1 ∧
  (reset_stats c).hits = 0 ∧
  (reset_stats c).misses = 0 ∧
  (reset_stats c).evictions = 0

/-- Outcome bundle for a failed first computation on an absent key followed by
a retry: the error is returned, the computation ran once, exactly one miss is
counted, no other counter moves, the residency structures are untouched (the
failure is not cached), and a second call with a succeeding computation
function recomputes and returns the new value. -/
def ErrorPathSpec {K V E : Type} [DecidableEq K] (c : Cache K V) (k : K)
    (f1 f2 : K → Except E V) (e : E) (v : V) : Prop :=
  (get_or_compute c k f1).result = .error e ∧
  (get_or_compute c k f1).invoked = 1 ∧
  (get_or_compute c k f1).cache.misses = c.misses + 1 ∧
  (get_or_compute c k f1).cache.hits = c.hits ∧
  (get_or_compute c k f1).cache.evictions = c.evictions ∧
  (get_or_compute c k f1).cache.index = c.index ∧
  (get_or_compute c k f1).cache.order = c.order ∧
  (get_or_compute (get_or_compute c k f1).cache k f2).result = .ok v ∧
  (get_or_compute (get_or_compute c k f1).cache k f2).invoked = 1

/-! Structural invariants of §3: no duplicate keys, RecencyList and HashIndex
in one-to-one correspondence, and the finite-capacity bound. -/

/-- Structural well-formedness: the RecencyList holds no duplicate keys and
is, up to order, exactly the key multiset of the HashIndex. -/
def WF {K V : Type} (c : Cache K V) : Prop :=
  c.order.Nodup ∧ c.order.Perm (c.index.map Prod.fst)

/-- Capacity bound: when the capacity is finite, the RecencyList length never
exceeds it. -/
def Bound {K V : Type} (c : Cache K V) : Prop :=
  ∀ m, c.cap = some m → c.order.length ≤ m

/-- Idempotent-hit property for one key: across two back-to-back calls the
computation function runs at most once and both calls return the same
outcome. -/
def HitIdempotentSpec {K V E : Type} [DecidableEq K] (c : Cache K V) (k : K)
    (f : K → Except E V) : Prop :=
  (get_or_compute c k f).invoked +
    (get_or_compute (get_or_compute c k f).cache k f).invoked ≤ 1 ∧
  (get_or_compute (get_or_compute c k f).cache k f).result =
    (get_or_compute c k f).result

/-- Conclusion bundle for C7: equal keys from permuted keyword bindings, so
the follow-up call with the re-ordered bindings is a hit — no invocation of
the computation function and exactly one more hit counted. -/
def KwargHitSpec {V : Type} (pos : List Arg) (kw1 kw2 : List (Nat × Arg))
    (c : Cache CacheKey V) (f : CacheKey → Except Unit V) : Prop :=
  build_key pos kw1 = build_key pos kw2 ∧
  (callArgs (callArgs c pos kw1 f).cache pos kw2 f).invoked = 0 ∧
  (callArgs (callArgs c pos kw1 f).cache pos kw2 f).cache.hits =
    (callArgs c pos kw1 f).cache.hits + 1

/-- Conclusion bundle for the literal LRU scenario of §8 with capacity 2 and
call order A, B, A, C: computation on A, computation on B, a hit on A that
promotes A to the RecencyList front without invoking the computation, then a
miss on C that evicts B; afterwards exactly A and C are resident and one
eviction was counted. -/
def LruScenarioSpec {K V : Type} [DecidableEq K] (a b c : K) (g : K → V) : Prop :=
  let f : K → Except Unit V := fun k => Except.ok (g k)
  let r1 := get_or_compute (new_cache (some 2)) a f
  let r2 := get_or_compute r1.cache b f
  let r3 := get_or_compute r2.cache a f
  let r4 := get_or_compute r3.cache c f
  r1.invoked = 1 ∧ r2.invoked = 1 ∧ r3.invoked = 0 ∧ r4.invoked = 1 ∧
  r3.cache.hits = 1 ∧ r3.cache.order = [a, b] ∧
  r4.cache.order = [c, a] ∧
  r4.cache.index.map Prod.fst = [c, a] ∧
  findVal b r4.cache.index = none ∧
  r4.cache.evictions = 1

/-- Modelled from the spec: the SingleFlightGroup of §4.4 joined with the
Cache, as a cooperative-interleaving machine.  `inflight` maps each key with
an outstanding Leader computation to its current number of waiting Followers;
`invocations` counts how many times the wrapped computation function was
started; `delivered` lists the values handed back to completed callers in
order of release. -/
structure FlightState (K V : Type) where
  cache : Cache K V
  inflight : List (K × Nat)
  invocations : Nat
  delivered : List V

/-- Modelled from the spec: a caller arriving at `get_or_compute` (§4.5
steps 3–5).  On a hit the value is delivered at once with a promotion and a
hit count.  Otherwise, if a Leader for the key is outstanding the caller
becomes a Follower and waits; if not, the caller becomes the Leader: it
counts the miss and starts the computation. -/
def enter {K V : Type} [DecidableEq K] (s : FlightState K V) (k : K) :
    FlightState K V :=
  match findVal k s.cache.index with
  | some v =>
      { s with
        cache :=
          { s.cache with
            order := k :: s.cache.order.erase k
            hits := s.cache.hits + 1 }
        delivered := s.delivered ++ [v] }
  | none =>
      match findVal k s.inflight with
      | some n =>
          { s with inflight := (k, n + 1) :: eraseKey k s.inflight }
      | none =>
          { s with
            inflight := (k, 0) :: s.inflight
            cache := { s.cache with misses := s.cache.misses + 1 }
            invocations := s.invocations + 1 }

/-- Modelled from the spec: the Leader's computation finishing with value `v`
(§4.4/§4.5 step 6 and the §8 single-flight scenario): the entry is inserted
and the capacity applied, the value is published to the Leader and all
Followers — each Follower's receipt of the published value counting as a
hit, per the §8 expectation `hits == 9` — and the group entry is torn
down. -/
def complete {K V : Type} [DecidableEq K] (s : FlightState K V) (k : K)
    (v : V) : FlightState K V :=
  match findVal k s.inflight with
  | none => s
  | some n =>
      { cache :=
          applyCap
            { s.cache with
              order := k :: s.cache.order
              index := (k, v) :: s.cache.index
              hits := s.cache.hits + n }
        inflight := eraseKey k s.inflight
        invocations := s.invocations
        delivered := s.delivered ++ List.replicate (n + 1) v }

/-- Repeated arrivals of concurrent callers for the same key, none of which
has completed yet. -/
def enterRepeat {K V : Type} [DecidableEq K] (k : K) :
    Nat → FlightState K V → FlightState K V
  | 0, s => s
  | n + 1, s => enterRepeat k n (enter s k)

/-- An idle single-flight state over a fresh cache. -/
def initFlight {K V : Type} (cap : Option Nat) : FlightState K V :=
  ⟨new_cache cap, [], 0, []⟩

/-- Outcome bundle for the §8 single-flight scenario with `n` concurrent
callers of one key on an unbounded cache: one computation start, one counted
miss, `n - 1` hits, the same value delivered to all `n` callers, and the
value resident afterwards. -/
def SingleFlightSpec {K V : Type} [DecidableEq K] (n : Nat) (k : K) (v : V) :
    Prop :=
  let s := complete (enterRepeat k n (initFlight (V := V) none)) k v
  s.invocations = 1 ∧ s.cache.misses = 1 ∧ s.cache.hits = n - 1 ∧
  s.delivered = List.replicate n v ∧ findVal k s.cache.index = some v ∧
  s.inflight = []

/-! The bounded-cache demonstration of `src/functools_examples.py`
(lines 333–382), translated from the source: `expensive` is wrapped in an
unbounded cache, `expensive_maxsize` in a capacity-2 cache, and `make_call`
reads `expensive_maxsize.cache_info().hits` before and after calling — note —
`expensive(a, b)`, printing "cache hit" only when that counter grew. -/

/-- One line of the demonstration's console output. -/
inductive OutputLine where
  | callMark (a b : Nat)
  | cacheHit
deriving Repr, DecidableEq

/-- State of the demonstration: the two caches behind the two decorated
functions, how many times each wrapped body has run, and the output so
far. -/
structure DemoState where
  expensiveCache : Cache (Nat × Nat) Nat
  maxsizeCache : Cache (Nat × Nat) Nat
  expInvocations : Nat
  maxInvocations : Nat
  output : List OutputLine

/-- The wrapped body shared by `expensive` and `expensive_maxsize`:
`return a * b`. -/
def expensiveFn : Nat × Nat → Except Unit Nat :=
  fun p => Except.ok (p.1 * p.2)

/-- The demonstration's starting state: `expensive` has the unbounded cache
of `functools.lru_cache()`, `expensive_maxsize` the `maxsize=2` cache. -/
def demoInit : DemoState :=
  ⟨new_cache none, new_cache (some 2), 0, 0, []⟩

/-- Translated from the source (`make_call`, lines 339–346): print the
argument pair, snapshot `expensive_maxsize`'s hit counter, call
`expensive(a, b)` — the unbounded one — snapshot the counter again, and
print "cache hit" when it grew. -/
def make_call (s : DemoState) (a b : Nat) : DemoState :=
  let pre_hits := s.maxsizeCache.hits
  let r := get_or_compute s.expensiveCache (a, b) expensiveFn
  let post_hits := s.maxsizeCache.hits
  { s with
    expensiveCache := r.cache
    expInvocations := s.expInvocations + r.invoked
    output := s.output ++ [OutputLine.callMark a b] ++
      (if post_hits > pre_hits then [OutputLine.cacheHit] else []) }

/-- A sequence of `make_call` invocations. -/
def runMakeCalls (calls : List (Nat × Nat)) (s : DemoState) : DemoState :=
  calls.foldl (fun s p => make_call s p.1 p.2) s

/-! Basic bookkeeping lemmas: eviction never touches the statistics other
than `evictions`, and never changes the capacity. -/

theorem popBack_misses {K V : Type} [DecidableEq K] (c : Cache K V) :
    (popBack c).misses = c.misses := by
  unfold popBack
  cases c.order.getLast? <;> rfl

theorem popBack_hits {K V : Type} [DecidableEq K] (c : Cache K V) :
    (popBack c).hits = c.hits := by
  unfold popBack
  cases c.order.getLast? <;> rfl

theorem popBack_cap {K V : Type} [DecidableEq K] (c : Cache K V) :
    (popBack c).cap = c.cap := by
  unfold popBack
  cases c.order.getLast? <;> rfl

theorem evictN_misses {K V : Type} [DecidableEq K] (fuel m : Nat) (c : Cache K V) :
    (evictN fuel m c).misses = c.misses := by
  induction fuel generalizing c with
  | zero => rfl
  | succ n ih =>
      unfold evictN
      by_cases h : c.order.length ≤ m
      · simp [h]
      · simp [h, ih, popBack_misses]

theorem evictN_hits {K V : Type} [DecidableEq K] (fuel m : Nat) (c : Cache K V) :
    (evictN fuel m c).hits = c.hits := by
  induction fuel generalizing c with
  | zero => rfl
  | succ n ih =>
      unfold evictN
      by_cases h : c.order.length ≤ m
      · simp [h]
      · simp [h, ih, popBack_hits]

theorem evictN_cap {K V : Type} [DecidableEq K] (fuel m : Nat) (c : Cache K V) :
    (evictN fuel m c).cap = c.cap := by
  induction fuel generalizing c with
  | zero => rfl
  | succ n ih =>
      unfold evictN
      by_cases h : c.order.length ≤ m
      · simp [h]
      · simp [h, ih, popBack_cap]

theorem applyCap_misses {K V : Type} [DecidableEq K] (c : Cache K V) :
    (applyCap c).misses = c.misses := by
  unfold applyCap
  cases c.cap <;> simp [evictN_misses]

theorem applyCap_hits {K V : Type} [DecidableEq K] (c : Cache K V) :
    (applyCap c).hits = c.hits := by
  unfold applyCap
  cases c.cap <;> simp [evictN_hits]

theorem applyCap_cap {K V : Type} [DecidableEq K] (c : Cache K V) :
    (applyCap c).cap = c.cap := by
  unfold applyCap
  cases h : c.cap <;> simp [h, evictN_cap]

theorem get_or_compute_cap {K V E : Type} [DecidableEq K] (c : Cache K V) (k : K)
    (f : K → Except E V) : (get_or_compute c k f).cache.cap = c.cap := by
  unfold get_or_compute
  by_cases h : c.cap = some 0
  · simp [h]
  · simp only [h, if_false]
    cases findVal k c.index with
    | some v => rfl
    | none =>
        cases f k with
        | error e => rfl
        | ok v => simp [applyCap_cap]

/-! Capacity-zero behaviour (§4.5 step 2, §6). -/

theorem get_or_compute_cap0 {K V E : Type} [DecidableEq K] (c : Cache K V)
    (k : K) (f : K → Except E V) (h : c.cap = some 0) :
    get_or_compute c k f = ⟨f k, { c with misses := c.misses + 1 }, 1⟩ := by
  simp [get_or_compute, h]

theorem runCalls_cap0 {K V E : Type} [DecidableEq K]
    (calls : List (K × (K → Except E V))) (c : Cache K V) (h : c.cap = some 0) :
    runCalls calls c = { c with misses := c.misses + calls.length } := by
  induction calls generalizing c with
  | nil =>
      simp [runCalls]
  | cons p rest ih =>
      simp only [runCalls, List.foldl_cons] at *
      rw [get_or_compute_cap0 c p.1 p.2 h]
      show List.foldl (fun s p => (get_or_compute s p.1 p.2).cache)
          { c with misses := c.misses + 1 } rest = _
      rw [ih { c with misses := c.misses + 1 } h]
      simp only [List.length_cons, Cache.mk.injEq]
      simp only [true_and, and_true]
      omega

/-- C8: with capacity 0 the cache is a pure pass-through: after any call
sequence from a fresh capacity-0 cache, `hits = 0` and `current_size = 0`,
every call so far was counted as a miss (`misses` equals the number of
calls), and any next call invokes the computation function, returns its
freshly computed result, and is itself counted as a miss. -/
theorem cap0_pure_passthrough {K V E : Type} [DecidableEq K]
    (calls : List (K × (K → Except E V))) (k : K) (f : K → Except E V) :
    (runCalls calls (new_cache (K := K) (V := V) (some 0))).hits = 0 ∧
    current_size (runCalls calls (new_cache (K := K) (V := V) (some 0))) = 0 ∧
    (runCalls calls (new_cache (K := K) (V := V) (some 0))).misses = calls.length ∧
    (get_or_compute (runCalls calls (new_cache (K := K) (V := V) (some 0))) k f).result = f k ∧
    (get_or_compute (runCalls calls (new_cache (K := K) (V := V) (some 0))) k f).invoked = 1 ∧
    (get_or_compute (runCalls calls (new_cache (K := K) (V := V) (some 0))) k f).cache.misses =
      (runCalls calls (new_cache (K := K) (V := V) (some 0))).misses + 1 := by
  have h0 : (new_cache (K := K) (V := V) (some 0)).cap = some 0 := rfl
  have hr := runCalls_cap0 calls (new_cache (K := K) (V := V) (some 0)) h0
  rw [hr]
  refine ⟨rfl, rfl, by simp [new_cache], ?_, ?_, ?_⟩ <;>
    rw [get_or_compute_cap0 _ k f rfl]

/-! Rewrite lemmas for the three branches of `get_or_compute` when the
capacity is not zero. -/

theorem get_or_compute_hit {K V E : Type} [DecidableEq K] {c : Cache K V}
    {k : K} {v : V} (f : K → Except E V) (h : findVal k c.index = some v)
    (hc : c.cap ≠ some 0) :
    get_or_compute c k f =
      ⟨.ok v, { c with order := k :: c.order.erase k, hits := c.hits + 1 }, 0⟩ := by
  unfold get_or_compute
  simp [hc, h]

theorem get_or_compute_miss_error {K V E : Type} [DecidableEq K] {c : Cache K V}
    {k : K} {e : E} {f : K → Except E V} (h : findVal k c.index = none)
    (hc : c.cap ≠ some 0) (hf : f k = .error e) :
    get_or_compute c k f = ⟨.error e, { c with misses := c.misses + 1 }, 1⟩ := by
  unfold get_or_compute
  simp [hc, h, hf]

theorem get_or_compute_miss_ok {K V E : Type} [DecidableEq K] {c : Cache K V}
    {k : K} {v : V} {f : K → Except E V} (h : findVal k c.index = none)
    (hc : c.cap ≠ some 0) (hf : f k = .ok v) :
    get_or_compute c k f =
      ⟨.ok v,
        applyCap
          { c with
            order := k :: c.order
            index := (k, v) :: c.index
            misses := c.misses + 1 }, 1⟩ := by
  unfold get_or_compute
  simp [hc, h, hf]

/-- Every miss (key absent from the HashIndex) invokes the computation
function exactly once and increments `misses` exactly once. -/
theorem get_or_compute_miss {K V E : Type} [DecidableEq K] (c : Cache K V)
    (k : K) (f : K → Except E V) (h : findVal k c.index = none) :
    (get_or_compute c k f).invoked = 1 ∧
    (get_or_compute c k f).cache.misses = c.misses + 1 := by
  by_cases hc : c.cap = some 0
  · rw [get_or_compute_cap0 c k f hc]
    exact ⟨rfl, rfl⟩
  · cases hf : f k with
    | error e => rw [get_or_compute_miss_error h hc hf]; exact ⟨rfl, rfl⟩
    | ok v =>
        rw [get_or_compute_miss_ok h hc hf]
        exact ⟨rfl, by simp [applyCap_misses]⟩

/-- C4: `clear()` empties the cache (size 0), a subsequent call with a key
that was cached before the clear recomputes and is counted as a miss, and the
`hits`/`misses`/`evictions` counters survive `clear()` unchanged, being
zeroed only by `reset_stats`. -/
theorem clear_resets_residency_not_stats {K V E : Type} [DecidableEq K]
    (c : Cache K V) (k : K) (w : V) (f : K → Except E V)
    (hk : findVal k c.index = some w) : ClearFrameSpec c k f := by
  have hmiss : findVal k (clear c).index = none := rfl
  have h2 := get_or_compute_miss (clear c) k f hmiss
  exact ⟨rfl, rfl, rfl, rfl, rfl, h2.1, h2.2, rfl, rfl, rfl⟩

/-- Witness for C4 at a concrete cache holding key 0. -/
theorem clear_resets_residency_not_stats_witness :
    findVal 0 (Cache.mk [0] [(0, 5)] (some 2) 3 4 6 : Cache Nat Nat).index = some 5 ∧
    ClearFrameSpec (E := Unit) (Cache.mk [0] [(0, 5)] (some 2) 3 4 6) 0
      (fun _ => Except.ok 7) :=
  ⟨rfl, clear_resets_residency_not_stats (Cache.mk [0] [(0, 5)] (some 2) 3 4 6) 0 5
    (fun _ => Except.ok 7) rfl⟩

/-- C5: a call with an unhashable argument fails with `Unhashable`, the
cache state is returned untouched (so nothing is cached and neither `hits`
nor `misses` changes), and the computation function is not invoked. -/
theorem unhashable_propagates_uncached {V : Type} (c : Cache CacheKey V)
    (pos : List Arg) (kw : List (Nat × Arg)) (f : CacheKey → Except Unit V)
    (h : (∃ a ∈ pos, a.hashable = false) ∨ ∃ p ∈ kw, p.2.hashable = false) :
    callArgs c pos kw f = ⟨.error .unhashable, c, 0⟩ := by
  have hh : hashableArgs pos kw = false := by
    unfold hashableArgs
    rcases h with ⟨a, ha, hf⟩ | ⟨p, hp, hf⟩
    · have : pos.all (·.hashable) = false := by
        rw [List.all_eq_false]
        exact ⟨a, ha, by simp [hf]⟩
      simp [this]
    · have : kw.all (fun p => p.2.hashable) = false := by
        rw [List.all_eq_false]
        exact ⟨p, hp, by simp [hf]⟩
      simp [this]
  unfold callArgs build_key
  simp [hh]

/-- Witness for C5 at a concrete unhashable positional argument. -/
theorem unhashable_propagates_uncached_witness :
    ((∃ a ∈ [Arg.mk false 1], a.hashable = false) ∨
      ∃ p ∈ ([] : List (Nat × Arg)), p.2.hashable = false) ∧
    callArgs (new_cache none : Cache CacheKey Nat) [Arg.mk false 1] []
      (fun _ => Except.ok 0) =
      ⟨Except.error CacheErr.unhashable, new_cache none, 0⟩ :=
  ⟨Or.inl ⟨Arg.mk false 1, by simp, rfl⟩,
    unhashable_propagates_uncached (new_cache none) [Arg.mk false 1] []
      (fun _ => Except.ok 0) (Or.inl ⟨Arg.mk false 1, by simp, rfl⟩)⟩

/-- C6: a computation error is never cached — the first call on an absent key
returns the error after one invocation and one counted miss, creates no
entry, and a later call with a computation function that succeeds recomputes
(invoking it) and returns its value, so the cache stays usable. -/
theorem computation_error_not_cached {K V E : Type} [DecidableEq K]
    (c : Cache K V) (k : K) (f1 f2 : K → Except E V) (e : E) (v : V)
    (hmiss : findVal k c.index = none) (hf1 : f1 k = .error e)
    (hf2 : f2 k = .ok v) : ErrorPathSpec c k f1 f2 e v := by
  unfold ErrorPathSpec
  by_cases hc : c.cap = some 0
  · rw [get_or_compute_cap0 c k f1 hc]
    have hc2 : (Cache.mk c.order c.index c.cap c.hits (c.misses + 1)
        c.evictions).cap = some 0 := hc
    rw [get_or_compute_cap0 _ k f2 hc2]
    exact ⟨by simp [hf1], rfl, rfl, rfl, rfl, rfl, rfl, by simp [hf2], rfl⟩
  · rw [get_or_compute_miss_error hmiss hc hf1]
    have hmiss2 : findVal k (Cache.mk c.order c.index c.cap c.hits
        (c.misses + 1) c.evictions).index = none := hmiss
    have hc2 : (Cache.mk c.order c.index c.cap c.hits (c.misses + 1)
        c.evictions).cap ≠ some 0 := hc
    rw [get_or_compute_miss_ok hmiss2 hc2 hf2]
    exact ⟨rfl, rfl, rfl, rfl, rfl, rfl, rfl, rfl, rfl⟩

/-- Witness for C6: empty unbounded cache, failing then succeeding
computation for key 0. -/
theorem computation_error_not_cached_witness :
    findVal 0 (new_cache (K := Nat) (V := Nat) none).index = none ∧
    ErrorPathSpec (E := Unit) (new_cache none) 0 (fun _ => Except.error ())
      (fun _ => Except.ok 3) () 3 :=
  ⟨rfl, computation_error_not_cached (new_cache none) 0 (fun _ => Except.error ())
    (fun _ => Except.ok 3) () 3 rfl rfl rfl⟩

theorem findVal_none_not_mem {K V : Type} [DecidableEq K] {k : K} :
    ∀ {l : List (K × V)}, findVal k l = none → k ∉ l.map Prod.fst := by
  intro l
  induction l with
  | nil => simp
  | cons p rest ih =>
      intro h hmem
      unfold findVal at h
      by_cases hp : p.1 = k
      · simp [hp] at h
      · rcases List.mem_cons.mp hmem with h1 | h1
        · exact hp h1.symm
        · exact ih (by simpa [hp] using h) h1

theorem findVal_some_mem {K V : Type} [DecidableEq K] {k : K} {v : V} :
    ∀ {l : List (K × V)}, findVal k l = some v → k ∈ l.map Prod.fst := by
  intro l
  induction l with
  | nil => intro h; simp [findVal] at h
  | cons p rest ih =>
      intro h
      unfold findVal at h
      by_cases hp : p.1 = k
      · simp [hp]
      · exact List.mem_cons_of_mem _ (ih (by simpa [hp] using h))

theorem map_fst_eraseKey {K V : Type} [DecidableEq K] (k : K) :
    ∀ (l : List (K × V)), (eraseKey k l).map Prod.fst = (l.map Prod.fst).erase k := by
  intro l
  induction l with
  | nil => rfl
  | cons p rest ih =>
      unfold eraseKey
      by_cases hp : p.1 = k
      · simp [hp, List.erase_cons_head]
      · simp [hp, List.erase_cons, ih]

theorem findVal_eraseKey_ne {K V : Type} [DecidableEq K] {k j : K} (hne : j ≠ k) :
    ∀ (l : List (K × V)), findVal k (eraseKey j l) = findVal k l := by
  intro l
  induction l with
  | nil => rfl
  | cons p rest ih =>
      show findVal k (if p.1 = j then rest else p :: eraseKey j rest) =
        findVal k (p :: rest)
      by_cases hp : p.1 = j
      · rw [if_pos hp]
        have hpk : p.1 ≠ k := by rw [hp]; exact hne
        have hr : findVal k (p :: rest) = findVal k rest := by
          show (if p.1 = k then some p.2 else findVal k rest) = findVal k rest
          rw [if_neg hpk]
        rw [hr]
      · rw [if_neg hp]
        show (if p.1 = k then some p.2 else findVal k (eraseKey j rest)) =
          findVal k (p :: rest)
        have hr : findVal k (p :: rest) =
            if p.1 = k then some p.2 else findVal k rest := rfl
        rw [hr]
        by_cases hpk : p.1 = k
        · rw [if_pos hpk, if_pos hpk]
        · rw [if_neg hpk, if_neg hpk, ih]

theorem popBack_WF {K V : Type} [DecidableEq K] {c : Cache K V} (h : WF c) :
    WF (popBack c) := by
  obtain ⟨hnd, hperm⟩ := h
  unfold popBack
  cases hlast : c.order.getLast? with
  | none => exact ⟨hnd, hperm⟩
  | some k =>
      have hne : c.order ≠ [] := by
        intro h0
        rw [h0] at hlast
        simp at hlast
      have hk : k = c.order.getLast hne := by
        have h3 := List.getLast?_eq_getLast c.order hne
        rw [hlast] at h3
        exact Option.some.inj h3
      have hdecomp : c.order.dropLast ++ [k] = c.order := by
        rw [hk]
        exact List.dropLast_append_getLast hne
      have hnotmem : k ∉ c.order.dropLast := by
        intro hm
        have h2 := hnd
        rw [← hdecomp] at h2
        exact ((List.nodup_append.mp h2).2.2 hm) (List.mem_singleton_self k)
      have herase : c.order.erase k = c.order.dropLast := by
        conv_lhs => rw [← hdecomp]
        rw [List.erase_append_right _ hnotmem, List.erase_cons_head]
        exact List.append_nil _
      have hkmem : k ∈ c.order := by
        rw [hk]
        exact List.getLast_mem hne
      refine ⟨(List.dropLast_sublist c.order).nodup hnd, ?_⟩
      rw [map_fst_eraseKey]
      have h1 : ((c.index.map Prod.fst).erase k).Perm (c.order.erase k) :=
        hperm.symm.erase k
      rw [herase] at h1
      exact h1.symm

theorem popBack_length {K V : Type} [DecidableEq K] {c : Cache K V}
    (h : c.order ≠ []) : (popBack c).order.length = c.order.length - 1 := by
  unfold popBack
  cases hlast : c.order.getLast? with
  | none => exact absurd (List.getLast?_eq_none_iff.mp hlast) h
  | some k => simp [List.length_dropLast]

theorem evictN_WF {K V : Type} [DecidableEq K] (fuel m : Nat) {c : Cache K V}
    (h : WF c) : WF (evictN fuel m c) := by
  induction fuel generalizing c with
  | zero => exact h
  | succ n ih =>
      unfold evictN
      by_cases hl : c.order.length ≤ m
      · simp only [hl, if_true]
        exact h
      · simp only [hl, if_false]
        exact ih (popBack_WF h)

theorem evictN_length_le {K V : Type} [DecidableEq K] (fuel m : Nat)
    {c : Cache K V} (h : c.order.length ≤ fuel + m) :
    (evictN fuel m c).order.length ≤ m := by
  induction fuel generalizing c with
  | zero => simpa using h
  | succ n ih =>
      unfold evictN
      by_cases hl : c.order.length ≤ m
      · simp [hl]
      · simp only [hl, if_false]
        have hne : c.order ≠ [] := by
          intro h0
          rw [h0] at hl
          exact hl (Nat.zero_le m)
        refine ih ?_
        rw [popBack_length hne]
        omega

theorem get_or_compute_WF {K V E : Type} [DecidableEq K] {c : Cache K V}
    (k : K) (f : K → Except E V) (h : WF c) :
    WF (get_or_compute c k f).cache := by
  obtain ⟨hnd, hperm⟩ := h
  by_cases hc : c.cap = some 0
  · rw [get_or_compute_cap0 c k f hc]
    exact ⟨hnd, hperm⟩
  · cases hfv : findVal k c.index with
    | some v =>
        rw [get_or_compute_hit f hfv hc]
        have hkmem : k ∈ c.order :=
          hperm.mem_iff.mpr (findVal_some_mem hfv)
        refine ⟨?_, ?_⟩
        · exact List.Nodup.cons hnd.not_mem_erase (hnd.erase k)
        · exact ((List.perm_cons_erase hkmem).symm).trans hperm
    | none =>
        cases hf : f k with
        | error e =>
            rw [get_or_compute_miss_error hfv hc hf]
            exact ⟨hnd, hperm⟩
        | ok v =>
            rw [get_or_compute_miss_ok hfv hc hf]
            have hknot : k ∉ c.order := fun hm =>
              findVal_none_not_mem hfv (hperm.mem_iff.mp hm)
            have hwf1 : WF (Cache.mk (k :: c.order) ((k, v) :: c.index) c.cap
                c.hits (c.misses + 1) c.evictions) :=
              ⟨List.Nodup.cons hknot hnd, hperm.cons k⟩
            show WF (applyCap _)
            unfold applyCap
            cases c.cap with
            | none => exact hwf1
            | some m => exact evictN_WF _ _ hwf1

theorem applyCap_bound {K V : Type} [DecidableEq K] (c : Cache K V) :
    Bound (applyCap c) := by
  intro m hm
  rw [applyCap_cap] at hm
  unfold applyCap
  rw [hm]
  exact evictN_length_le _ _ (Nat.le_add_right _ _)

theorem get_or_compute_Bound {K V E : Type} [DecidableEq K] {c : Cache K V}
    (k : K) (f : K → Except E V) (hwf : WF c) (hb : Bound c) :
    Bound (get_or_compute c k f).cache := by
  obtain ⟨hnd, hperm⟩ := hwf
  by_cases hc : c.cap = some 0
  · rw [get_or_compute_cap0 c k f hc]
    exact hb
  · cases hfv : findVal k c.index with
    | some v =>
        rw [get_or_compute_hit f hfv hc]
        intro m hm
        have hkmem : k ∈ c.order :=
          hperm.mem_iff.mpr (findVal_some_mem hfv)
        have hlen : (k :: c.order.erase k).length = c.order.length :=
          ((List.perm_cons_erase hkmem).symm).length_eq
        exact hlen ▸ hb m hm
    | none =>
        cases hf : f k with
        | error e =>
            rw [get_or_compute_miss_error hfv hc hf]
            exact hb
        | ok v =>
            rw [get_or_compute_miss_ok hfv hc hf]
            exact applyCap_bound _

theorem runCalls_WF_Bound {K V E : Type} [DecidableEq K] :
    ∀ (calls : List (K × (K → Except E V))) (c : Cache K V),
      WF c → Bound c →
      WF (runCalls calls c) ∧ Bound (runCalls calls c) := by
  intro calls
  induction calls with
  | nil => exact fun c hwf hb => ⟨hwf, hb⟩
  | cons p rest ih =>
      intro c hwf hb
      show WF (runCalls rest (get_or_compute c p.1 p.2).cache) ∧ _
      exact ih _ (get_or_compute_WF p.1 p.2 hwf)
        (get_or_compute_Bound p.1 p.2 hwf hb)

theorem runCalls_cap {K V E : Type} [DecidableEq K] :
    ∀ (calls : List (K × (K → Except E V))) (c : Cache K V),
      (runCalls calls c).cap = c.cap := by
  intro calls
  induction calls with
  | nil => exact fun c => rfl
  | cons p rest ih =>
      intro c
      show (runCalls rest (get_or_compute c p.1 p.2).cache).cap = c.cap
      rw [ih, get_or_compute_cap]

/-- C2: after any sequence of `get_or_compute` calls against a fresh cache of
finite capacity `C`, the HashIndex size is at most `C`, the HashIndex and the
RecencyList have equal sizes, and no key occurs twice in either structure.
Since the call sequence is universally quantified, the same holds at every
intermediate point of any longer sequence. -/
theorem capacity_bound_and_no_duplicates {K V E : Type} [DecidableEq K]
    (C : Nat) (calls : List (K × (K → Except E V))) :
    current_size (runCalls calls (new_cache (K := K) (V := V) (some C))) ≤ C ∧
    current_size (runCalls calls (new_cache (K := K) (V := V) (some C))) =
      (runCalls calls (new_cache (K := K) (V := V) (some C))).order.length ∧
    (runCalls calls (new_cache (K := K) (V := V) (some C))).order.Nodup ∧
    ((runCalls calls (new_cache (K := K) (V := V) (some C))).index.map
      Prod.fst).Nodup := by
  have h0wf : WF (new_cache (K := K) (V := V) (some C)) :=
    ⟨List.nodup_nil, List.Perm.refl []⟩
  have h0b : Bound (new_cache (K := K) (V := V) (some C)) := by
    intro m hm
    exact Nat.zero_le m
  obtain ⟨⟨hnd, hperm⟩, hb⟩ :=
    runCalls_WF_Bound calls (new_cache (K := K) (V := V) (some C)) h0wf h0b
  have hcap := runCalls_cap calls (new_cache (K := K) (V := V) (some C))
  have hsz : current_size (runCalls calls (new_cache (K := K) (V := V) (some C))) =
      (runCalls calls (new_cache (K := K) (V := V) (some C))).order.length := by
    unfold current_size
    rw [hperm.length_eq, List.length_map]
  refine ⟨?_, hsz, hnd, (hperm.nodup_iff).mp hnd⟩
  rw [hsz]
  exact hb C hcap

theorem findVal_insert_self {K V : Type} [DecidableEq K] (k : K) (v : V)
    (l : List (K × V)) : findVal k ((k, v) :: l) = some v := by
  show (if k = k then some v else findVal k l) = some v
  rw [if_pos rfl]

theorem popBack_spec {K V : Type} [DecidableEq K] (c : Cache K V) (k : K)
    (t : List K) (ho : c.order = k :: t) (htne : t ≠ []) :
    (popBack c).order = k :: t.dropLast ∧
    (popBack c).index = eraseKey (t.getLast htne) c.index := by
  have h1 : c.order.getLast? = some (t.getLast htne) := by
    rw [ho, List.getLast?_eq_getLast (k :: t) (by simp)]
    congr 1
    exact List.getLast_cons htne
  unfold popBack
  rw [h1]
  refine ⟨?_, rfl⟩
  show c.order.dropLast = k :: t.dropLast
  rw [ho]
  cases t with
  | nil => exact absurd rfl htne
  | cons x xs => exact List.dropLast_cons₂

/-- During the eviction loop with capacity at least 1, the front (most
recently used) key survives, and its stored value stays findable. -/
theorem evictN_head_preserved {K V : Type} [DecidableEq K] (fuel m : Nat)
    (hm : 1 ≤ m) :
    ∀ (c : Cache K V) (k : K) (t : List K) (v : V),
      c.order = k :: t → c.order.Nodup → findVal k c.index = some v →
      (∃ t2, (evictN fuel m c).order = k :: t2) ∧
      findVal k (evictN fuel m c).index = some v := by
  induction fuel with
  | zero =>
      intro c k t v ho hnd hfv
      exact ⟨⟨t, ho⟩, hfv⟩
  | succ n ih =>
      intro c k t v ho hnd hfv
      unfold evictN
      by_cases hl : c.order.length ≤ m
      · simp only [hl, if_true]
        exact ⟨⟨t, ho⟩, hfv⟩
      · simp only [hl, if_false]
        have htne : t ≠ [] := by
          intro h0
          rw [ho, h0] at hl
          simp at hl
          omega
        obtain ⟨hord, hidx⟩ := popBack_spec c k t ho htne
        have hknott : k ∉ t := by
          rw [ho] at hnd
          exact (List.nodup_cons.mp hnd).1
        have hlastne : t.getLast htne ≠ k := fun he =>
          hknott (he ▸ List.getLast_mem htne)
        have hfv2 : findVal k (popBack c).index = some v := by
          rw [hidx, findVal_eraseKey_ne hlastne]
          exact hfv
        have hnd2 : (popBack c).order.Nodup := by
          rw [hord]
          rw [ho] at hnd
          exact ((List.dropLast_sublist t).cons₂ k).nodup hnd
        exact ih (popBack c) k t.dropLast v hord hnd2 hfv2

theorem applyCap_head_preserved {K V : Type} [DecidableEq K] (c : Cache K V)
    (k : K) (t : List K) (v : V) (ho : c.order = k :: t)
    (hnd : c.order.Nodup) (hfv : findVal k c.index = some v)
    (hc : c.cap ≠ some 0) : findVal k (applyCap c).index = some v := by
  unfold applyCap
  cases hcap : c.cap with
  | none => exact hfv
  | some m =>
      cases m with
      | zero => exact absurd hcap hc
      | succ m2 =>
          exact (evictN_head_preserved c.order.length (m2 + 1) (by omega)
            c k t v ho hnd hfv).2

/-- After a successful miss-computation the key is resident with the computed
value (the insertion of §4.5 step 6 survives the eviction loop). -/
theorem get_or_compute_hit_after_miss {K V E : Type} [DecidableEq K]
    {c : Cache K V} {k : K} {v : V} {f : K → Except E V} (hwf : WF c)
    (hc : c.cap ≠ some 0) (hfv : findVal k c.index = none)
    (hf : f k = .ok v) :
    findVal k (get_or_compute c k f).cache.index = some v := by
  rw [get_or_compute_miss_ok hfv hc hf]
  have hknot : k ∉ c.order := fun hm2 =>
    findVal_none_not_mem hfv (hwf.2.mem_iff.mp hm2)
  exact applyCap_head_preserved
    (Cache.mk (k :: c.order) ((k, v) :: c.index) c.cap c.hits (c.misses + 1)
      c.evictions) k c.order v rfl (List.Nodup.cons hknot hwf.1)
    (findVal_insert_self k v c.index) hc

/-- C3 (amended): for a well-formed cache whose capacity is not zero and a
computation that succeeds on `k`, two back-to-back `get_or_compute k` calls
invoke the computation at most once and return equal values. -/
theorem hit_idempotent_nonzero_cap {K V E : Type} [DecidableEq K]
    (c : Cache K V) (k : K) (f : K → Except E V) (v : V) (hwf : WF c)
    (hc : c.cap ≠ some 0) (hf : f k = .ok v) : HitIdempotentSpec c k f := by
  unfold HitIdempotentSpec
  cases hfv : findVal k c.index with
  | some w =>
      have h1 := get_or_compute_hit f hfv hc
      have hfv2 : findVal k (Cache.mk (k :: c.order.erase k) c.index c.cap
          (c.hits + 1) c.misses c.evictions).index = some w := hfv
      have hc2 : (Cache.mk (k :: c.order.erase k) c.index c.cap (c.hits + 1)
          c.misses c.evictions).cap ≠ some 0 := hc
      have h2 := get_or_compute_hit f hfv2 hc2
      simp [h1, h2]
  | none =>
      have h1 := get_or_compute_miss_ok hfv hc hf
      have hpres := get_or_compute_hit_after_miss hwf hc hfv hf
      have hc2 : (get_or_compute c k f).cache.cap ≠ some 0 := by
        rw [get_or_compute_cap]
        exact hc
      have h2 := get_or_compute_hit f hpres hc2
      rw [h2, h1]
      simp

/-- C3 (counterexample to the claim as stated): with capacity 0 — where no
eviction and no clear ever intervenes, `evictions` stays 0 and the cache
state is never touched between the calls — two back-to-back calls for the
same key both invoke the computation function (twice in total), defeating
"invoked at most once" even though both calls return equal values. -/
theorem hit_idempotent_counterexample :
    (get_or_compute (new_cache (K := Nat) (V := Nat) (some 0)) 0
        (fun _ => (Except.ok 5 : Except Unit Nat))).cache.evictions = 0 ∧
    (get_or_compute (get_or_compute (new_cache (K := Nat) (V := Nat) (some 0)) 0
        (fun _ => (Except.ok 5 : Except Unit Nat))).cache 0
        (fun _ => (Except.ok 5 : Except Unit Nat))).result =
      (get_or_compute (new_cache (K := Nat) (V := Nat) (some 0)) 0
        (fun _ => (Except.ok 5 : Except Unit Nat))).result ∧
    ¬ ((get_or_compute (new_cache (K := Nat) (V := Nat) (some 0)) 0
        (fun _ => (Except.ok 5 : Except Unit Nat))).invoked +
      (get_or_compute (get_or_compute (new_cache (K := Nat) (V := Nat) (some 0)) 0
        (fun _ => (Except.ok 5 : Except Unit Nat))).cache 0
        (fun _ => (Except.ok 5 : Except Unit Nat))).invoked ≤ 1) := by
  refine ⟨rfl, rfl, ?_⟩
  decide

/-- Witness for the amended C3 at a concrete empty capacity-2 cache. -/
theorem hit_idempotent_nonzero_cap_witness :
    (WF (new_cache (K := Nat) (V := Nat) (some 2)) ∧
      (new_cache (K := Nat) (V := Nat) (some 2)).cap ≠ some 0 ∧
      (fun _ => (Except.ok 5 : Except Unit Nat)) 0 = Except.ok 5) ∧
    HitIdempotentSpec (new_cache (some 2)) 0
      (fun _ => (Except.ok 5 : Except Unit Nat)) :=
  ⟨⟨⟨List.nodup_nil, List.Perm.refl []⟩, by decide, rfl⟩,
    hit_idempotent_nonzero_cap (new_cache (some 2)) 0
      (fun _ => (Except.ok 5 : Except Unit Nat)) 5
      ⟨List.nodup_nil, List.Perm.refl []⟩ (by decide) rfl⟩

theorem perm_all_eq {α : Type} {l1 l2 : List α} (p : α → Bool)
    (h : l1.Perm l2) : l1.all p = l2.all p := by
  cases h2 : l2.all p with
  | true =>
      rw [List.all_eq_true] at h2 ⊢
      intro x hx
      exact h2 x (h.mem_iff.mp hx)
  | false =>
      rw [List.all_eq_false] at h2 ⊢
      obtain ⟨x, hx, hpx⟩ := h2
      exact ⟨x, h.mem_iff.mpr hx, hpx⟩

/-- Key construction is insensitive to the order keyword bindings are
supplied in: the canonical sort gives permutation-invariant output. -/
theorem build_key_perm (pos : List Arg) {kw1 kw2 : List (Nat × Arg)}
    (hperm : kw1.Perm kw2) : build_key pos kw1 = build_key pos kw2 := by
  have hall : kw1.all (fun p => p.2.hashable) = kw2.all (fun p => p.2.hashable) :=
    perm_all_eq _ hperm
  have hsort : List.insertionSort pairLe (kw1.map (fun p => (p.1, p.2.val))) =
      List.insertionSort pairLe (kw2.map (fun p => (p.1, p.2.val))) := by
    exact @List.eq_of_perm_of_sorted _ pairLe _ _ _
      ((List.perm_insertionSort _ _).trans
        ((hperm.map _).trans (List.perm_insertionSort _ _).symm))
      (List.sorted_insertionSort _ _) (List.sorted_insertionSort _ _)
  unfold build_key hashableArgs
  rw [hall, hsort]

/-- When a call returns a value, its key is resident afterwards. -/
theorem get_or_compute_result_ok_resident {K V E : Type} [DecidableEq K]
    {c : Cache K V} {k : K} {v : V} {f : K → Except E V} (hwf : WF c)
    (hc : c.cap ≠ some 0) (hres : (get_or_compute c k f).result = .ok v) :
    ∃ w, findVal k (get_or_compute c k f).cache.index = some w := by
  cases hfv : findVal k c.index with
  | some w =>
      rw [get_or_compute_hit f hfv hc]
      exact ⟨w, hfv⟩
  | none =>
      cases hf : f k with
      | error e =>
          rw [get_or_compute_miss_error hfv hc hf] at hres
          simp at hres
      | ok u =>
          exact ⟨u, get_or_compute_hit_after_miss hwf hc hfv hf⟩

/-- C7: key construction is invariant under reordering of keyword arguments
(positional arguments stay order-significant in the key), and consequently a
second call with the same bindings in another order hits the entry produced
by a first successful call. -/
theorem kwarg_order_invariant {V : Type} (pos : List Arg)
    (kw1 kw2 : List (Nat × Arg)) (c : Cache CacheKey V)
    (f : CacheKey → Except Unit V) (v : V) (hperm : kw1.Perm kw2)
    (hwf : WF c) (hc : c.cap ≠ some 0)
    (hres : (callArgs c pos kw1 f).result = Except.ok v) :
    KwargHitSpec pos kw1 kw2 c f := by
  have hkeys := build_key_perm pos hperm
  refine ⟨hkeys, ?_⟩
  cases hbk : build_key pos kw1 with
  | error e =>
      unfold callArgs at hres
      rw [hbk] at hres
      simp at hres
  | ok key =>
      have hbk2 : build_key pos kw2 = Except.ok key := hkeys.symm.trans hbk
      have hck : callArgs c pos kw1 f =
          ⟨(get_or_compute c key f).result.mapError
              (fun _ => CacheErr.computationFailed),
            (get_or_compute c key f).cache, (get_or_compute c key f).invoked⟩ := by
        unfold callArgs
        rw [hbk]
      have hres3 : (get_or_compute c key f).result.mapError
          (fun _ => CacheErr.computationFailed) = Except.ok v := by
        rw [hck] at hres
        exact hres
      have hres2 : (get_or_compute c key f).result = Except.ok v := by
        cases hr : (get_or_compute c key f).result with
        | error e2 =>
            rw [hr] at hres3
            simp [Except.mapError] at hres3
        | ok u =>
            rw [hr] at hres3
            simp [Except.mapError] at hres3
            rw [hres3]
      obtain ⟨w, hwres⟩ := get_or_compute_result_ok_resident hwf hc hres2
      have hc2 : (get_or_compute c key f).cache.cap ≠ some 0 := by
        rw [get_or_compute_cap]
        exact hc
      have hhit := get_or_compute_hit f hwres hc2
      have houter : callArgs (callArgs c pos kw1 f).cache pos kw2 f =
          ⟨(get_or_compute (callArgs c pos kw1 f).cache key f).result.mapError
              (fun _ => CacheErr.computationFailed),
            (get_or_compute (callArgs c pos kw1 f).cache key f).cache,
            (get_or_compute (callArgs c pos kw1 f).cache key f).invoked⟩ := by
        unfold callArgs
        rw [hbk2]
      have hcache1 : (callArgs c pos kw1 f).cache = (get_or_compute c key f).cache := by
        rw [hck]
      rw [houter, hcache1, hhit]
      simp

/-- Witness for C7: two keyword bindings supplied in both orders against a
fresh capacity-2 cache. -/
theorem kwarg_order_invariant_witness :
    ([((1 : Nat), Arg.mk true 10), (2, Arg.mk true 20)].Perm
        [(2, Arg.mk true 20), (1, Arg.mk true 10)] ∧
      WF (new_cache (K := CacheKey) (V := Nat) (some 2)) ∧
      (new_cache (K := CacheKey) (V := Nat) (some 2)).cap ≠ some 0 ∧
      (callArgs (new_cache (some 2)) [] [(1, Arg.mk true 10), (2, Arg.mk true 20)]
        (fun _ => Except.ok 0)).result = Except.ok 0) ∧
    KwargHitSpec [] [(1, Arg.mk true 10), (2, Arg.mk true 20)]
      [(2, Arg.mk true 20), (1, Arg.mk true 10)] (new_cache (some 2))
      (fun _ => Except.ok 0) :=
  ⟨⟨List.Perm.swap (2, Arg.mk true 20) (1, Arg.mk true 10) [],
      ⟨List.nodup_nil, List.Perm.refl []⟩, by decide, rfl⟩,
    kwarg_order_invariant [] [(1, Arg.mk true 10), (2, Arg.mk true 20)]
      [(2, Arg.mk true 20), (1, Arg.mk true 10)] (new_cache (some 2))
      (fun _ => Except.ok 0) 0
      (List.Perm.swap (2, Arg.mk true 20) (1, Arg.mk true 10) [])
      ⟨List.nodup_nil, List.Perm.refl []⟩ (by decide) rfl⟩

/-- C1: for any three distinct keys, the capacity-2 call sequence A, B, A, C
computes A and B, hits and promotes A, then evicts exactly B on the miss for
C, leaving the resident key set `{A, C}` and `evictions = 1`. -/
theorem lru_literal_scenario {K V : Type} [DecidableEq K] (a b c : K)
    (g : K → V) (hab : a ≠ b) (hac : a ≠ c) (hbc : b ≠ c) :
    LruScenarioSpec a b c g := by
  unfold LruScenarioSpec
  simp [get_or_compute, new_cache, findVal, applyCap, evictN, popBack, eraseKey,
    hab, hac, hbc, Ne.symm hab, Ne.symm hac, Ne.symm hbc]

/-- Witness for C1 at the concrete distinct keys 0, 1, 2. -/
theorem lru_literal_scenario_witness :
    ((0 : Nat) ≠ 1 ∧ (0 : Nat) ≠ 2 ∧ (1 : Nat) ≠ 2) ∧
    LruScenarioSpec (V := Nat) 0 1 2 id :=
  ⟨by decide, lru_literal_scenario 0 1 2 id (by decide) (by decide) (by decide)⟩

theorem enterRepeat_followers {K V : Type} [DecidableEq K] (k : K) :
    ∀ (m j : Nat),
      enterRepeat (V := V) k m
        ⟨Cache.mk [] [] none 0 1 0, [(k, j)], 1, []⟩ =
      ⟨Cache.mk [] [] none 0 1 0, [(k, j + m)], 1, []⟩ := by
  intro m
  induction m with
  | zero => intro j; rfl
  | succ n ih =>
      intro j
      show enterRepeat k n (enter ⟨Cache.mk [] [] none 0 1 0, [(k, j)], 1, []⟩ k) = _
      have he : enter (V := V) ⟨Cache.mk [] [] none 0 1 0, [(k, j)], 1, []⟩ k =
          ⟨Cache.mk [] [] none 0 1 0, [(k, j + 1)], 1, []⟩ := by
        unfold enter
        simp [findVal, eraseKey]
      rw [he, ih (j + 1)]
      have : j + 1 + n = j + (n + 1) := by omega
      rw [this]

/-- C9: when `n ≥ 1` callers for the same key all arrive before the Leader's
computation finishes, the computation runs exactly once, only the Leader's
path counts a miss (`misses = 1`), the other `n - 1` callers are counted as
hits, and all `n` callers receive the same published value. -/
theorem single_flight_dedup {K V : Type} [DecidableEq K] (n : Nat) (k : K)
    (v : V) (hn : 1 ≤ n) : SingleFlightSpec (V := V) n k v := by
  unfold SingleFlightSpec
  obtain ⟨m, rfl⟩ : ∃ m, n = m + 1 := ⟨n - 1, by omega⟩
  have h1 : enter (initFlight (V := V) none) k =
      ⟨Cache.mk [] [] none 0 1 0, [(k, 0)], 1, []⟩ := by
    unfold enter initFlight new_cache
    simp [findVal]
  have h2 : enterRepeat k (m + 1) (initFlight (V := V) none) =
      ⟨Cache.mk [] [] none 0 1 0, [(k, m)], 1, []⟩ := by
    show enterRepeat k m (enter (initFlight (V := V) none) k) = _
    rw [h1]
    have := enterRepeat_followers (V := V) k m 0
    simpa using this
  rw [h2]
  unfold complete
  simp [findVal, eraseKey, applyCap, evictN, findVal_insert_self]

/-- Witness for C9 at the literal scenario size: 10 concurrent callers. -/
theorem single_flight_dedup_witness :
    1 ≤ 10 ∧ SingleFlightSpec (K := Nat) (V := Nat) 10 0 7 :=
  ⟨by decide, single_flight_dedup 10 0 7 (by decide)⟩

theorem get_or_compute_hits_misses_sum {K V E : Type} [DecidableEq K]
    (c : Cache K V) (k : K) (f : K → Except E V) (v : V)
    (hf : f k = .ok v) :
    (get_or_compute c k f).cache.hits + (get_or_compute c k f).cache.misses =
      c.hits + c.misses + 1 := by
  by_cases hc : c.cap = some 0
  · rw [get_or_compute_cap0 c k f hc]
    show c.hits + (c.misses + 1) = c.hits + c.misses + 1
    omega
  · cases hfv : findVal k c.index with
    | some w =>
        rw [get_or_compute_hit f hfv hc]
        show c.hits + 1 + c.misses = c.hits + c.misses + 1
        omega
    | none =>
        rw [get_or_compute_miss_ok hfv hc hf]
        rw [applyCap_hits, applyCap_misses]
        show c.hits + (c.misses + 1) = c.hits + c.misses + 1
        omega

theorem make_call_step (s : DemoState) (a b : Nat) :
    (make_call s a b).maxsizeCache = s.maxsizeCache ∧
    (make_call s a b).maxInvocations = s.maxInvocations ∧
    (make_call s a b).output = s.output ++ [OutputLine.callMark a b] ∧
    (make_call s a b).expensiveCache.hits +
        (make_call s a b).expensiveCache.misses =
      s.expensiveCache.hits + s.expensiveCache.misses + 1 := by
  unfold make_call
  refine ⟨rfl, rfl, ?_, ?_⟩
  · simp
  · exact get_or_compute_hits_misses_sum s.expensiveCache (a, b) expensiveFn
      (a * b) rfl

theorem runMakeCalls_frame :
    ∀ (calls : List (Nat × Nat)) (s : DemoState),
      (runMakeCalls calls s).maxsizeCache = s.maxsizeCache ∧
      (runMakeCalls calls s).maxInvocations = s.maxInvocations ∧
      (∀ x ∈ (runMakeCalls calls s).output,
        x ∈ s.output ∨ x ≠ OutputLine.cacheHit) ∧
      (runMakeCalls calls s).expensiveCache.hits +
          (runMakeCalls calls s).expensiveCache.misses =
        s.expensiveCache.hits + s.expensiveCache.misses + calls.length := by
  intro calls
  induction calls with
  | nil =>
      intro s
      exact ⟨rfl, rfl, fun x hx => Or.inl hx, rfl⟩
  | cons p rest ih =>
      intro s
      obtain ⟨hm, hi, ho, hc⟩ := make_call_step s p.1 p.2
      have hstep := ih (make_call s p.1 p.2)
      refine ⟨hstep.1.trans hm, hstep.2.1.trans hi, ?_, ?_⟩
      · intro x hx
        rcases hstep.2.2.1 x hx with hx2 | hx2
        · rw [ho] at hx2
          rcases List.mem_append.mp hx2 with hx3 | hx3
          · exact Or.inl hx3
          · right
            intro hxe
            rw [hxe] at hx3
            simp at hx3
        · exact Or.inr hx2
      · show (runMakeCalls (p :: rest) s).expensiveCache.hits + _ = _
        have h4 : (runMakeCalls (p :: rest) s) =
            runMakeCalls rest (make_call s p.1 p.2) := rfl
        rw [h4, hstep.2.2.2, hc]
        simp [List.length_cons]
        omega

/-- C10: in the demonstration, `make_call` always routes through the
unbounded `expensive` cache and never through `expensive_maxsize`: over any
call sequence the `expensive_maxsize` cache (and so its hit counter, read
before and after each call) is unchanged from its initial state, its wrapped
body never runs, "cache hit" is never printed, and each `make_call`
registers exactly one lookup (hit or miss) on the `expensive` cache. -/
theorem make_call_never_hits_maxsize (calls : List (Nat × Nat)) :
    (runMakeCalls calls demoInit).maxsizeCache = new_cache (some 2) ∧
    (runMakeCalls calls demoInit).maxsizeCache.hits = 0 ∧
    (runMakeCalls calls demoInit).maxInvocations = 0 ∧
    OutputLine.cacheHit ∉ (runMakeCalls calls demoInit).output ∧
    (runMakeCalls calls demoInit).expensiveCache.hits +
        (runMakeCalls calls demoInit).expensiveCache.misses = calls.length := by
  obtain ⟨hm, hi, ho, hc⟩ := runMakeCalls_frame calls demoInit
  refine ⟨hm, by rw [hm]; rfl, hi, ?_, by rw [hc]; simp [demoInit, new_cache]⟩
  intro hmem
  rcases ho _ hmem with h1 | h1
  · simp [demoInit] at h1
  · exact h1 rfl

end LruSpec
